import Mathlib

/-
Verification development for the `ac` trading core.

Shallow embedding conventions:
* `u64` timestamps, order ids and counters are `Nat`.
* `f64` prices, sizes and cash are `ℚ`; the float transcendentals `exp` and
  `sqrt` used by the OFI signaler are abstracted as function parameters.
* Rust `HashMap`s are embedded either as lookup functions `k → Option v`
  or as association lists, as noted at each definition.
* A Rust `.unwrap()` on a map lookup (a panic when the key is absent) is
  embedded as propagating `none`; every theorem that depends on such a
  lookup carries the membership hypothesis that makes the branch dead.
-/

/-- Instrument identifiers, from `data_center::okx_api::types::InstId`. -/
inductive InstId where
  | EthUsdtSwap
  | BtcUsdtSwap
deriving DecidableEq

/-- Execution role of a fill, from `ac_core::ExecType`. -/
inductive ExecType where
  | Taker
  | Maker
deriving DecidableEq

/-- Fill state, from `ac_core::FillState`. -/
inductive FillState where
  | Live
  | Partially
  | Filled
deriving DecidableEq

/-- Strategy signal, from `ac_core::strategy::Signal`. -/
inductive Signal where
  | Long
  | Short
deriving DecidableEq

/-- Best bid and offer, from `ac_core::data::Bbo`. -/
structure Bbo where
  ts : Nat
  instrument_id : InstId
  bid_price : ℚ
  bid_size : ℚ
  ask_price : ℚ
  ask_size : ℚ
deriving DecidableEq

/-- Market order, from `ac_core::MarketOrder`. -/
structure MarketOrder where
  order_id : Nat
  instrument_id : InstId
  size : ℚ
  side : Bool
deriving DecidableEq

/-- Limit order, from `ac_core::LimitOrder`. -/
structure LimitOrder where
  order_id : Nat
  instrument_id : InstId
  price : ℚ
  size : ℚ
  filled_size : ℚ
  side : Bool
deriving DecidableEq

/-- Amend request, from `ac_core::AmendOrder`. -/
structure AmendOrder where
  order_id : Nat
  instrument_id : InstId
  new_size : ℚ
  new_price : ℚ
deriving DecidableEq

/-- Fill record, from `ac_core::Fill`. -/
structure Fill where
  order_id : Nat
  instrument_id : InstId
  filled_size : ℚ
  acc_filled_size : ℚ
  price : ℚ
  side : Bool
  exec_type : ExecType
  state : FillState
deriving DecidableEq

/-- Order, from `ac_core::Order`. -/
inductive Order where
  | Market (order : MarketOrder)
  | Limit (order : LimitOrder)
deriving DecidableEq

/-- `LimitOrder::from_raw_size` (ac_core/src/lib.rs). -/
def LimitOrder.from_raw_size (raw_size : ℚ) (order_id : Nat) (instrument_id : InstId)
    (price : ℚ) : LimitOrder :=
  let p := if 0 < raw_size then (raw_size, true) else (-raw_size, false)
  { order_id := order_id, instrument_id := instrument_id, price := price,
    size := p.1, side := p.2, filled_size := 0 }

/-- `LimitOrder::amended` (ac_core/src/lib.rs lines 112-122): sets
`size := filled_size + new_size` and `price := new_price` on the order, and
returns the corresponding `AmendOrder` request. We return the mutated order
together with the request. -/
def LimitOrder.amended (o : LimitOrder) (new_size new_price : ℚ) :
    LimitOrder × AmendOrder :=
  let o' := { o with size := o.filled_size + new_size, price := new_price }
  (o', { order_id := o'.order_id, instrument_id := o'.instrument_id,
         new_size := o'.size, new_price := o'.price })

/-- `LimitOrder::unfilled_size` (ac_core/src/lib.rs). -/
def LimitOrder.unfilled_size (o : LimitOrder) : ℚ :=
  o.size - o.filled_size

/-- `LimitOrder::fill` (ac_core/src/lib.rs): apply a fill to a working order. -/
def LimitOrder.fill (o : LimitOrder) (f : Fill) : Option LimitOrder :=
  match f.state with
  | FillState.Live => some o
  | FillState.Partially => some { o with filled_size := f.acc_filled_size }
  | FillState.Filled => none

/-- Mutation performed by the `ClientEvent::AmendOrder` arm of
`SandboxBroker::on_client_event` (ac_core/src/backtest.rs lines 228-237) on the
matched working order: `existing.price := order.price; existing.size := order.size`. -/
def SandboxBroker.amendExisting (existing order : LimitOrder) : LimitOrder :=
  { existing with price := order.price, size := order.size }

/-- `Bbo::get_unbiased_price` (ac_core/src/data.rs). -/
def Bbo.get_unbiased_price (b : Bbo) : ℚ :=
  (b.bid_price * b.ask_size + b.ask_price * b.bid_size) / (b.bid_size + b.ask_size)

/-- `<Bbo as MatchOrder>::fill_market_order` (ac_core/src/backtest.rs lines
293-310). The source unwraps the map lookup; a missing instrument is embedded
as `none`. -/
def Bbo.fill_market_order (inst_bbo : InstId → Option Bbo) (order : MarketOrder) :
    Option Fill :=
  match inst_bbo order.instrument_id with
  | none => none
  | some bbo =>
    let price := if order.side then bbo.ask_price else bbo.bid_price
    some { order_id := order.order_id, instrument_id := order.instrument_id,
           side := order.side, price := price, filled_size := order.size,
           acc_filled_size := order.size, exec_type := ExecType.Taker,
           state := FillState.Filled }

/-- `<Bbo as MatchOrder>::try_fill_limit_order` (ac_core/src/backtest.rs lines
314-350). The source unwraps the map lookup; a missing instrument is embedded
as `none`. -/
def Bbo.try_fill_limit_order (inst_bbo : InstId → Option Bbo) (order : LimitOrder)
    (exec_type : ExecType) : Option Fill :=
  match inst_bbo order.instrument_id with
  | none => none
  | some bbo =>
    let price :=
      if exec_type = ExecType.Maker then order.price
      else if order.side then bbo.ask_price else bbo.bid_price
    if (order.side = true ∧ bbo.ask_price ≤ order.price)
        ∨ (order.side = false ∧ order.price ≤ bbo.bid_price) then
      some { order_id := order.order_id, instrument_id := order.instrument_id,
             side := order.side, price := price, filled_size := order.size,
             acc_filled_size := order.size, exec_type := exec_type,
             state := FillState.Filled }
    else
      none

/-- `<Bbo as MatchOrder>::market_price` (ac_core/src/backtest.rs). -/
def Bbo.market_price (b : Bbo) : ℚ :=
  b.get_unbiased_price

/-- Unfolding equation for `Bbo.try_fill_limit_order` when the order's
instrument is present in the map. -/
theorem Bbo.try_fill_limit_order_eq (m : InstId → Option Bbo) (o : LimitOrder)
    (bbo : Bbo) (et : ExecType) (hm : m o.instrument_id = some bbo) :
    Bbo.try_fill_limit_order m o et =
      if (o.side = true ∧ bbo.ask_price ≤ o.price)
          ∨ (o.side = false ∧ o.price ≤ bbo.bid_price) then
        some { order_id := o.order_id, instrument_id := o.instrument_id,
               side := o.side,
               price := if et = ExecType.Maker then o.price
                        else if o.side then bbo.ask_price else bbo.bid_price,
               filled_size := o.size, acc_filled_size := o.size,
               exec_type := et, state := FillState.Filled }
      else none := by
  unfold Bbo.try_fill_limit_order
  rw [hm]

/-- C1: for every limit order and BBO map containing the order's instrument,
`try_fill_limit_order` returns a fill exactly when (buy and limit price ≥ ask)
or (sell and limit price ≤ bid); the fill's price is the touched side's price
for `Taker` and the order's own limit price for `Maker`; in particular, a buy
at exactly the ask fills and (with bid < ask) a buy at exactly the bid does not. -/
theorem C1_try_fill_limit_order (m : InstId → Option Bbo) (o : LimitOrder)
    (bbo : Bbo) (et : ExecType) (hm : m o.instrument_id = some bbo) :
    ((Bbo.try_fill_limit_order m o et).isSome
      ↔ ((o.side = true ∧ bbo.ask_price ≤ o.price)
          ∨ (o.side = false ∧ o.price ≤ bbo.bid_price)))
    ∧ (∀ f, Bbo.try_fill_limit_order m o et = some f →
        f.price = (if et = ExecType.Maker then o.price
                   else if o.side then bbo.ask_price else bbo.bid_price)
        ∧ f.order_id = o.order_id ∧ f.filled_size = o.size
        ∧ f.exec_type = et ∧ f.state = FillState.Filled)
    ∧ (o.side = true → o.price = bbo.ask_price →
        (Bbo.try_fill_limit_order m o et).isSome)
    ∧ (o.side = true → o.price = bbo.bid_price → bbo.bid_price < bbo.ask_price →
        Bbo.try_fill_limit_order m o et = none) := by
  rw [Bbo.try_fill_limit_order_eq m o bbo et hm]
  refine ⟨?_, ?_, ?_, ?_⟩
  · split
    · simp only [Option.isSome_some, true_iff]
      exact ‹_›
    · simp only [Option.isSome_none, Bool.false_eq_true, false_iff]
      exact ‹_›
  · intro f hf
    split at hf
    · simp only [Option.some.injEq] at hf
      subst hf
      exact ⟨rfl, rfl, rfl, rfl, rfl⟩
    · simp at hf
  · intro hs hp
    rw [if_pos (Or.inl ⟨hs, le_of_eq hp.symm⟩)]
    rfl
  · intro hs hp hlt
    rw [if_neg]
    rintro (⟨-, hle⟩ | ⟨hside, -⟩)
    · rw [hp] at hle
      exact absurd hle (not_le.mpr hlt)
    · rw [hs] at hside
      exact absurd hside (by decide)

/-- Witness for C1 at a concrete order and book. -/
theorem C1_witness :
    let bbo : Bbo := { ts := 1000, instrument_id := InstId.EthUsdtSwap,
                       bid_price := 50000, bid_size := 1, ask_price := 50001,
                       ask_size := 1 }
    let o : LimitOrder := { order_id := 2, instrument_id := InstId.EthUsdtSwap,
                            price := 50001, size := 1/2, filled_size := 0,
                            side := true }
    (Bbo.try_fill_limit_order (fun _ => some bbo) o ExecType.Taker).isSome := by
  intro bbo o
  exact (C1_try_fill_limit_order (fun _ => some bbo) o bbo ExecType.Taker rfl).2.2.1
    rfl rfl

/-- Equity-curve record, from `ac_core::backtest::Record`. -/
structure Record where
  ts : Nat
  value : ℚ
deriving DecidableEq

/-- Reporter state, from `ac_core::backtest::Reporter`. The configured
frequency is in milliseconds (`Duration::num_milliseconds` of the source). -/
structure Reporter where
  value_history : List Record
  frequency : Nat
  last_ts_bin : Nat
  value_buf : ℚ
  is_initialized : Bool
  is_end : Bool
deriving DecidableEq

/-- `Reporter::new` (ac_core/src/backtest.rs lines 379-384); other fields take
their `Default` values. -/
def Reporter.new (frequency : Nat) : Reporter :=
  { value_history := [], frequency := frequency, last_ts_bin := 0,
    value_buf := 0, is_initialized := false, is_end := false }

/-- `Reporter::pub_buf_record` (ac_core/src/backtest.rs lines 386-391). -/
def Reporter.pub_buf_record (r : Reporter) : Reporter :=
  { r with
    value_history :=
      r.value_history ++ [⟨r.last_ts_bin + r.frequency, r.value_buf⟩],
    last_ts_bin := r.last_ts_bin + r.frequency }

/-- The `while` loop of `Reporter::insert` (ac_core/src/backtest.rs lines
402-406), embedded with explicit fuel so that it is structural. When
`0 < frequency`, fuel `ts` always suffices (the loop runs at most
`ts / frequency` times); for `frequency = 0` the source loops forever while
this embedding stops when the fuel runs out. -/
def Reporter.pubLoopFuel : Nat → Reporter → Nat → Reporter
  | 0, r, _ => r
  | fuel + 1, r, ts =>
    if r.last_ts_bin + r.frequency < ts then
      Reporter.pubLoopFuel fuel r.pub_buf_record ts
    else r

/-- The `while` loop of `Reporter::insert` with its sufficient fuel. -/
def Reporter.pubLoop (r : Reporter) (ts : Nat) : Reporter :=
  Reporter.pubLoopFuel ts r ts

/-- `Reporter::insert` (ac_core/src/backtest.rs lines 393-408). The source's
outer `if ts > last_ts_bin + frequency` guard and the loop's own condition
coincide, so the guard selects whether the loop runs at all; in both branches
the buffer is overwritten afterwards. -/
def Reporter.insert (r : Reporter) (ts : Nat) (value : ℚ) : Reporter :=
  if r.is_initialized = false then
    { r with last_ts_bin := ts / r.frequency * r.frequency, value_buf := value,
             is_initialized := true }
  else if r.last_ts_bin + r.frequency < ts then
    { r.pubLoop ts with value_buf := value }
  else
    { r with value_buf := value }

/-- `Reporter::end` (ac_core/src/backtest.rs lines 410-425); named `finish`
because `end` is a Lean keyword. The source first sets `is_end`, which does
not affect the history branch condition, so the flag is folded into each
branch here. -/
def Reporter.finish (r : Reporter) : Reporter :=
  if r.is_end then r
  else if r.value_history = [] then
    { r with is_end := true,
             value_history := [⟨r.last_ts_bin + r.frequency, r.value_buf⟩] }
  else
    { r with is_end := true }.pub_buf_record

/-- Characterization of the insert loop: with positive frequency and enough
fuel it appends one record per skipped bin boundary, carrying the buffered
value, and advances `last_ts_bin` accordingly. -/
theorem Reporter.pubLoopFuel_eq : ∀ (fuel : Nat) (r : Reporter) (ts : Nat),
    0 < r.frequency → ts - r.last_ts_bin ≤ fuel →
    Reporter.pubLoopFuel fuel r ts =
      { r with
        value_history := r.value_history ++
          (List.range ((ts - r.last_ts_bin - 1) / r.frequency)).map
            (fun k => ⟨r.last_ts_bin + (k + 1) * r.frequency, r.value_buf⟩),
        last_ts_bin :=
          r.last_ts_bin + ((ts - r.last_ts_bin - 1) / r.frequency) * r.frequency } := by
  intro fuel
  induction fuel with
  | zero =>
    intro r ts hf hle
    have h0 : (ts - r.last_ts_bin - 1) / r.frequency = 0 :=
      Nat.div_eq_of_lt (by omega)
    rw [Reporter.pubLoopFuel, h0]
    simp
  | succ n ih =>
    intro r ts hf hle
    by_cases hg : r.last_ts_bin + r.frequency < ts
    · rw [Reporter.pubLoopFuel, if_pos hg]
      rw [ih r.pub_buf_record ts (by simp [Reporter.pub_buf_record]; omega)
            (by simp [Reporter.pub_buf_record]; omega)]
      have hnum : ts - r.last_ts_bin - 1 - r.frequency
          = ts - (r.last_ts_bin + r.frequency) - 1 := by omega
      have hn : (ts - r.last_ts_bin - 1) / r.frequency =
          (ts - (r.last_ts_bin + r.frequency) - 1) / r.frequency + 1 := by
        rw [Nat.div_eq_sub_div hf (by omega : r.frequency ≤ ts - r.last_ts_bin - 1),
          hnum]
      simp only [Reporter.pub_buf_record]
      rw [hn, List.range_succ_eq_map]
      simp only [List.map_cons, List.map_map, List.append_assoc,
        List.cons_append, List.nil_append, Reporter.mk.injEq]
      refine ⟨?_, trivial, ?_, trivial, trivial, trivial⟩
      · have hmap : ∀ k,
            ((fun k => (⟨r.last_ts_bin + (k + 1) * r.frequency, r.value_buf⟩ : Record)) ∘
              Nat.succ) k =
            (fun k =>
              (⟨r.last_ts_bin + r.frequency + (k + 1) * r.frequency,
                r.value_buf⟩ : Record)) k := by
          intro k
          simp only [Function.comp]
          congr 1
          rw [Nat.succ_eq_add_one]
          ring
        rw [List.map_congr_left (fun k _ => hmap k)]
        simp [Nat.add_mul, Nat.one_mul]
      · ring
    · rw [Reporter.pubLoopFuel, if_neg hg]
      have h0 : (ts - r.last_ts_bin - 1) / r.frequency = 0 :=
        Nat.div_eq_of_lt (by omega)
      rw [h0]
      simp

/-- Same characterization for `pubLoop` itself. -/
theorem Reporter.pubLoop_eq (r : Reporter) (ts : Nat) (hf : 0 < r.frequency) :
    r.pubLoop ts =
      { r with
        value_history := r.value_history ++
          (List.range ((ts - r.last_ts_bin - 1) / r.frequency)).map
            (fun k => ⟨r.last_ts_bin + (k + 1) * r.frequency, r.value_buf⟩),
        last_ts_bin :=
          r.last_ts_bin + ((ts - r.last_ts_bin - 1) / r.frequency) * r.frequency } :=
  Reporter.pubLoopFuel_eq ts r ts hf (by omega)

/-- C2: for an initialized Reporter with positive frequency, `insert ts v`
appends one record per skipped bin boundary, each carrying the previously
buffered value at timestamp `boundary + k*frequency`, then overwrites the
buffer with `v`; inserts within the current bin only overwrite the buffer; and
with frequency 100 the sequence `insert 150 10; insert 450 30; end` yields
exactly the records (200,10),(300,10),(400,10),(500,30). -/
theorem C2_reporter_insert (r : Reporter) (ts : Nat) (v : ℚ)
    (hf : 0 < r.frequency) (hinit : r.is_initialized = true) :
    ((r.insert ts v).value_history = r.value_history ++
        (List.range ((ts - r.last_ts_bin - 1) / r.frequency)).map
          (fun k => ⟨r.last_ts_bin + (k + 1) * r.frequency, r.value_buf⟩)
      ∧ (r.insert ts v).value_buf = v
      ∧ (ts ≤ r.last_ts_bin + r.frequency →
          (r.insert ts v).value_history = r.value_history))
    ∧ ((((Reporter.new 100).insert 150 10).insert 450 30).finish).value_history
        = [⟨200, 10⟩, ⟨300, 10⟩, ⟨400, 10⟩, ⟨500, 30⟩] := by
  constructor
  · unfold Reporter.insert
    rw [if_neg (by simp [hinit])]
    by_cases hg : r.last_ts_bin + r.frequency < ts
    · rw [if_pos hg, Reporter.pubLoop_eq r ts hf]
      exact ⟨rfl, rfl, fun hle => absurd hg (by omega)⟩
    · rw [if_neg hg]
      have h0 : (ts - r.last_ts_bin - 1) / r.frequency = 0 :=
        Nat.div_eq_of_lt (by omega)
      rw [h0]
      exact ⟨by simp, rfl, fun _ => rfl⟩
  · decide

/-- Witness for C2: the concrete Scenario D run, with the hypotheses
discharged at the reporter obtained after `insert 150 10`. -/
theorem C2_witness :
    ((((Reporter.new 100).insert 150 10).insert 450 30).finish).value_history
      = [⟨200, 10⟩, ⟨300, 10⟩, ⟨400, 10⟩, ⟨500, 30⟩] :=
  (C2_reporter_insert ((Reporter.new 100).insert 150 10) 450 30 (by decide)
    (by decide)).2

/-- Consecutive records differ by exactly `f` milliseconds. -/
def gapsExact (f : Nat) : List Record → Bool
  | [] => true
  | [_] => true
  | a :: b :: rest => (b.ts == a.ts + f) && gapsExact f (b :: rest)

/-- Record timestamps are strictly increasing. -/
def tsStrictMono : List Record → Bool
  | [] => true
  | [_] => true
  | a :: b :: rest => (decide (a.ts < b.ts)) && tsStrictMono (b :: rest)

/-- Appending one record keeps the exact-gap property iff the new record sits
one frequency after the previous last record. -/
theorem gapsExact_concat (f : Nat) (x : Record) :
    ∀ l : List Record, gapsExact f (l ++ [x]) = true ↔
      (gapsExact f l = true ∧ ∀ y ∈ l.getLast?, x.ts = y.ts + f) := by
  intro l
  induction l with
  | nil => simp [gapsExact]
  | cons a l ih =>
    cases l with
    | nil => simp [gapsExact]
    | cons b l' =>
      simp only [List.cons_append, List.append_eq, gapsExact, Bool.and_eq_true,
        beq_iff_eq, List.getLast?_cons_cons] at ih ⊢
      rw [ih]
      tauto

/-- Exact positive gaps imply strictly increasing timestamps. -/
theorem gapsExact_strictMono (f : Nat) (hf : 0 < f) :
    ∀ l, gapsExact f l = true → tsStrictMono l = true := by
  intro l
  induction l with
  | nil => intro _; rfl
  | cons a l ih =>
    cases l with
    | nil => intro _; rfl
    | cons b l' =>
      simp only [gapsExact, tsStrictMono, Bool.and_eq_true, beq_iff_eq,
        decide_eq_true_eq]
      rintro ⟨h1, h2⟩
      exact ⟨by omega, ih h2⟩

/-- The block of records emitted by the insert loop extends a history whose
last timestamp is `ltb` while keeping exact gaps, and moves the last timestamp
to `ltb + n * f`. -/
theorem gapsExact_append_range (f : Nat) (h : List Record) (ltb : Nat) (buf : ℚ)
    (hgaps : gapsExact f h = true) (hlast : ∀ y ∈ h.getLast?, y.ts = ltb) :
    ∀ n, gapsExact f (h ++ (List.range n).map
          (fun k => ⟨ltb + (k + 1) * f, buf⟩)) = true
      ∧ (∀ y ∈ (h ++ (List.range n).map
          (fun k => (⟨ltb + (k + 1) * f, buf⟩ : Record))).getLast?,
          y.ts = ltb + n * f) := by
  intro n
  induction n with
  | zero =>
    simpa using ⟨hgaps, hlast⟩
  | succ m ih =>
    obtain ⟨ih1, ih2⟩ := ih
    rw [List.range_succ]
    simp only [List.map_append, List.map_cons, List.map_nil, ← List.append_assoc]
    constructor
    · rw [gapsExact_concat]
      refine ⟨ih1, ?_⟩
      intro y hy
      rw [ih2 y hy]
      show ltb + (m + 1) * f = ltb + m * f + f
      ring
    · intro y hy
      rw [List.getLast?_concat] at hy
      simp only [Option.mem_def, Option.some.injEq] at hy
      subst hy
      rfl

/-- Invariant tying a reporter's history to its current bin boundary. -/
def ReporterInv (f : Nat) (r : Reporter) : Prop :=
  r.frequency = f
  ∧ gapsExact f r.value_history = true
  ∧ (r.is_initialized = false → r.value_history = [])
  ∧ (∀ y ∈ r.value_history.getLast?, y.ts = r.last_ts_bin)

/-- Fresh reporters satisfy the invariant. -/
theorem reporterInv_new (f : Nat) : ReporterInv f (Reporter.new f) := by
  refine ⟨rfl, rfl, fun _ => rfl, ?_⟩
  intro y hy
  simp [Reporter.new] at hy

/-- `insert` preserves the invariant. -/
theorem reporterInv_insert (f : Nat) (hf : 0 < f) (r : Reporter) (ts : Nat)
    (v : ℚ) (h : ReporterInv f r) : ReporterInv f (r.insert ts v) := by
  obtain ⟨hfreq, hgaps, hinit, hlast⟩ := h
  subst hfreq
  unfold Reporter.insert
  by_cases hi : r.is_initialized = false
  · rw [if_pos hi]
    have hempty := hinit hi
    exact ⟨rfl, by rw [hempty]; rfl, fun _ => hempty, by simp [hempty]⟩
  · rw [if_neg hi]
    by_cases hg : r.last_ts_bin + r.frequency < ts
    · rw [if_pos hg, Reporter.pubLoop_eq r ts hf]
      have hr := gapsExact_append_range r.frequency r.value_history
        r.last_ts_bin r.value_buf hgaps hlast
        ((ts - r.last_ts_bin - 1) / r.frequency)
      exact ⟨rfl, hr.1, fun hc => absurd hc hi, hr.2⟩
    · rw [if_neg hg]
      exact ⟨rfl, hgaps, fun hc => absurd hc hi, hlast⟩

/-- `finish` produces a history with exact gaps from any invariant state. -/
theorem gapsExact_finish (f : Nat) (r : Reporter) (h : ReporterInv f r) :
    gapsExact f (r.finish).value_history = true := by
  obtain ⟨hfreq, hgaps, hinit, hlast⟩ := h
  subst hfreq
  unfold Reporter.finish
  by_cases he : r.is_end = true
  · rw [if_pos he]
    exact hgaps
  · rw [if_neg he]
    by_cases hnil : r.value_history = []
    · rw [if_pos hnil]
      rfl
    · rw [if_neg hnil]
      show gapsExact r.frequency (r.value_history ++
        [⟨r.last_ts_bin + r.frequency, r.value_buf⟩]) = true
      rw [gapsExact_concat]
      refine ⟨hgaps, ?_⟩
      intro y hy
      rw [hlast y hy]

/-- C3 counterexample: calling `insert` again after `end` (all public entry
points of the claimed "any sequence of insert and end calls") re-publishes the
bin boundary 200 and produces a duplicated timestamp, so the history is not
strictly increasing. -/
theorem C3_counterexample :
    ((((Reporter.new 100).insert 150 10).finish).insert 350 7).value_history
      = [⟨200, 10⟩, ⟨200, 10⟩, ⟨300, 10⟩]
    ∧ tsStrictMono
        ((((Reporter.new 100).insert 150 10).finish).insert 350 7).value_history
      = false := by
  constructor
  · rfl
  · rfl

/-- C3 (amended): for any sequence of `insert` calls followed by the single
terminating `end`, starting from a fresh Reporter with positive frequency, the
records of `value_history` have strictly increasing timestamps and consecutive
gaps exactly equal to the frequency. (The original claim fails only for
sequences that call `insert` again after `end`.) -/
theorem C3_reporter_monotone (f : Nat) (hf : 0 < f)
    (inserts : List (Nat × ℚ)) :
    gapsExact f
      ((inserts.foldl (fun r p => r.insert p.1 p.2) (Reporter.new f)).finish).value_history
      = true
    ∧ tsStrictMono
      ((inserts.foldl (fun r p => r.insert p.1 p.2) (Reporter.new f)).finish).value_history
      = true := by
  have hfold : ∀ (l : List (Nat × ℚ)) (r : Reporter), ReporterInv f r →
      ReporterInv f (l.foldl (fun r p => r.insert p.1 p.2) r) := by
    intro l
    induction l with
    | nil => intro r h; exact h
    | cons p ps ih =>
      intro r h
      exact ih _ (reporterInv_insert f hf r p.1 p.2 h)
  have hinv := hfold inserts (Reporter.new f) (reporterInv_new f)
  have hgaps := gapsExact_finish f _ hinv
  exact ⟨hgaps, gapsExact_strictMono f hf _ hgaps⟩

/-- Witness for the amended C3 at a concrete insert sequence. -/
theorem C3_witness :
    gapsExact 100
      (((([(150, (10 : ℚ)), (450, 30)]).foldl (fun r p => r.insert p.1 p.2)
        (Reporter.new 100)).finish).value_history) = true
    ∧ tsStrictMono
      (((([(150, (10 : ℚ)), (450, 30)]).foldl (fun r p => r.insert p.1 p.2)
        (Reporter.new 100)).finish).value_history) = true :=
  C3_reporter_monotone 100 (by decide) [(150, 10), (450, 30)]

/-- C6 counterexample: the executor-side helper `LimitOrder::amended` on a
partially filled order (filled_size = 0.5, new_size = 0.8) leaves a working
quantity of 0.8, not new_size − filled_size = 0.3, refuting the claim that
both amend paths yield working quantity new_size − filled_size. -/
theorem C6_counterexample :
    ((({ order_id := 5, instrument_id := InstId.EthUsdtSwap, price := 49999,
         size := 1, filled_size := 1/2, side := true } : LimitOrder).amended
        (8/10) 50001).1).unfilled_size = 8/10
    ∧ ¬ ((8 : ℚ)/10 = 8/10 - 1/2) := by
  constructor
  · show (1 : ℚ)/2 + 8/10 - 1/2 = 8/10
    norm_num
  · norm_num

/-- C6 (amended): the broker-side amend keeps order_id and filled_size, sets
the price, and leaves working quantity new_size − filled_size; the
executor-side `LimitOrder::amended` also keeps order_id and filled_size and
sets the price, but sets `size := filled_size + new_size`, so its working
quantity is `new_size` (the two agree only when filled_size = 0); on the
Scenario C order (size 1.0, filled 0) amended to (50001, 0.8), both paths
leave a working order with price 50001, size 0.8, filled_size 0. -/
theorem C6_amend_semantics (existing amend o : LimitOrder) (ns np : ℚ) :
    ((SandboxBroker.amendExisting existing amend).order_id = existing.order_id
      ∧ (SandboxBroker.amendExisting existing amend).filled_size
          = existing.filled_size
      ∧ (SandboxBroker.amendExisting existing amend).price = amend.price
      ∧ (SandboxBroker.amendExisting existing amend).unfilled_size
          = amend.size - existing.filled_size)
    ∧ ((o.amended ns np).1.order_id = o.order_id
      ∧ (o.amended ns np).1.filled_size = o.filled_size
      ∧ (o.amended ns np).1.price = np
      ∧ (o.amended ns np).1.unfilled_size = ns)
    ∧ (SandboxBroker.amendExisting
        { order_id := 5, instrument_id := InstId.EthUsdtSwap, price := 49999,
          size := 1, filled_size := 0, side := true }
        { order_id := 5, instrument_id := InstId.EthUsdtSwap, price := 50001,
          size := 8/10, filled_size := 0, side := true }
        = { order_id := 5, instrument_id := InstId.EthUsdtSwap, price := 50001,
            size := 8/10, filled_size := 0, side := true }
      ∧ (({ order_id := 5, instrument_id := InstId.EthUsdtSwap, price := 49999,
            size := 1, filled_size := 0, side := true } : LimitOrder).amended
            (8/10) 50001).1
        = { order_id := 5, instrument_id := InstId.EthUsdtSwap, price := 50001,
            size := 8/10, filled_size := 0, side := true }) := by
  refine ⟨⟨rfl, rfl, rfl, rfl⟩, ⟨rfl, rfl, rfl, ?_⟩, rfl, ?_⟩
  · show o.filled_size + ns - o.filled_size = ns
    ring
  · simp only [LimitOrder.amended, LimitOrder.mk.injEq]
    norm_num

/-- Position, from `ac_core::Position`. -/
structure Position where
  size : ℚ
deriving DecidableEq

/-- `Position::new`. -/
def Position.new (size : ℚ) : Position :=
  ⟨size⟩

/-- `Position::new_from_fill` (ac_core/src/lib.rs). -/
def Position.new_from_fill (f : Fill) : Position :=
  ⟨if f.side then f.filled_size else -f.filled_size⟩

/-- `Position::update` (ac_core/src/lib.rs). -/
def Position.update (p : Position) (f : Fill) : Position :=
  ⟨if f.side then p.size + f.filled_size else p.size - f.filled_size⟩

/-- `float_cmp::approx_eq!` with an explicit epsilon margin, embedded as
`|a - b| ≤ eps` (the additional 4-ULP escape hatch of the float library is
outside the rational model). -/
def approx_eq (a b eps : ℚ) : Bool :=
  decide (|a - b| ≤ eps)

/-- `Position::is_clear` (ac_core/src/lib.rs). -/
def Position.is_clear (p : Position) (size_digits : ℤ) : Bool :=
  approx_eq 0 p.size ((10 : ℚ) ^ (-size_digits))

/-- Portfolio, from `ac_core::Portfolio`; the `FxHashMap` is embedded as a
lookup function. -/
structure Portfolio where
  positions : InstId → Option Position

/-- Point update of the positions map (models `HashMap::insert` / `remove`). -/
def Portfolio.setPos (p : Portfolio) (id : InstId) (v : Option Position) :
    Portfolio :=
  ⟨fun i => if i = id then v else p.positions i⟩

/-- `Portfolio::new`. -/
def Portfolio.new : Portfolio :=
  ⟨fun _ => none⟩

/-- `Portfolio::update` (ac_core/src/lib.rs lines 277-290). -/
def Portfolio.update (p : Portfolio) (new_fill : Fill) : Portfolio :=
  match p.positions new_fill.instrument_id with
  | some position =>
    let position' := position.update new_fill
    if |position'.size| < 1/10^12 then
      p.setPos new_fill.instrument_id none
    else
      p.setPos new_fill.instrument_id (some position')
  | none =>
    p.setPos new_fill.instrument_id (some (Position.new_from_fill new_fill))

/-- Lookup after a point update. -/
theorem Portfolio.setPos_get (p : Portfolio) (id : InstId) (v : Option Position)
    (i : InstId) :
    (p.setPos id v).positions i = if i = id then v else p.positions i :=
  rfl

/-- C9 counterexample: a first fill of size 10⁻¹³ creates and retains a
position whose absolute size is below the 10⁻¹² threshold, because the
creation branch of `Portfolio::update` performs no threshold check. -/
theorem C9_counterexample :
    (Portfolio.new.update
        { order_id := 1, instrument_id := InstId.BtcUsdtSwap,
          filled_size := 1/10^13, acc_filled_size := 1/10^13, price := 150,
          side := true, exec_type := ExecType.Taker,
          state := FillState.Filled }).positions InstId.BtcUsdtSwap
      = some ⟨1/10^13⟩
    ∧ |((1 : ℚ)/10^13)| < 1/10^12 := by
  constructor
  · rfl
  · rw [abs_of_pos (by norm_num)]
    norm_num

/-- C9 (amended): the update branch of `Portfolio::update` (acting on an
already existing entry) never retains a position with |size| < 10⁻¹², and the
10⁻¹² invariant holds over every sequence of fills provided each fill's size
is at least 10⁻¹²; the creation branch alone performs no threshold check. -/
theorem C9_portfolio_threshold :
    (∀ (p : Portfolio) (f : Fill) (pos : Position),
        (p.positions f.instrument_id).isSome →
        (p.update f).positions f.instrument_id = some pos →
        1/10^12 ≤ |pos.size|)
    ∧ (∀ fills : List Fill, (∀ f ∈ fills, 1/10^12 ≤ f.filled_size) →
        ∀ (id : InstId) (pos : Position),
          (fills.foldl Portfolio.update Portfolio.new).positions id = some pos →
          1/10^12 ≤ |pos.size|) := by
  have hstep : ∀ (p : Portfolio) (f : Fill), 1/10^12 ≤ f.filled_size →
      (∀ (id : InstId) (pos : Position),
        p.positions id = some pos → 1/10^12 ≤ |pos.size|) →
      ∀ (id : InstId) (pos : Position),
        (p.update f).positions id = some pos → 1/10^12 ≤ |pos.size| := by
    intro p f hf hp id pos hpos
    unfold Portfolio.update at hpos
    cases hlook : p.positions f.instrument_id with
    | some position =>
      rw [hlook] at hpos
      simp only at hpos
      by_cases hsmall : |(position.update f).size| < 1/10^12
      · rw [if_pos hsmall, Portfolio.setPos_get] at hpos
        by_cases hid : id = f.instrument_id
        · rw [if_pos hid] at hpos
          exact absurd hpos (by simp)
        · rw [if_neg hid] at hpos
          exact hp id pos hpos
      · rw [if_neg hsmall, Portfolio.setPos_get] at hpos
        by_cases hid : id = f.instrument_id
        · rw [if_pos hid] at hpos
          simp only [Option.some.injEq] at hpos
          subst hpos
          exact le_of_not_lt hsmall
        · rw [if_neg hid] at hpos
          exact hp id pos hpos
    | none =>
      rw [hlook] at hpos
      simp only [Portfolio.setPos_get] at hpos
      by_cases hid : id = f.instrument_id
      · rw [if_pos hid] at hpos
        simp only [Option.some.injEq] at hpos
        subst hpos
        unfold Position.new_from_fill
        by_cases hside : f.side
      -- both signs have the same absolute value, which is the fill size
        · rw [if_pos hside]
          rw [abs_of_nonneg (le_trans (by norm_num) hf)]
          exact hf
        · rw [if_neg hside, abs_neg]
          rw [abs_of_nonneg (le_trans (by norm_num) hf)]
          exact hf
      · rw [if_neg hid] at hpos
        exact hp id pos hpos
  constructor
  · intro p f pos hsome hpos
    unfold Portfolio.update at hpos
    cases hlook : p.positions f.instrument_id with
    | some position =>
      rw [hlook] at hpos
      simp only at hpos
      by_cases hsmall : |(position.update f).size| < 1/10^12
      · rw [if_pos hsmall, Portfolio.setPos_get, if_pos rfl] at hpos
        exact absurd hpos (by simp)
      · rw [if_neg hsmall, Portfolio.setPos_get, if_pos rfl] at hpos
        simp only [Option.some.injEq] at hpos
        subst hpos
        exact le_of_not_lt hsmall
    | none =>
      rw [hlook] at hsome
      exact absurd hsome (by simp)
  · intro fills
    have hgen : ∀ (p : Portfolio), (∀ f ∈ fills, 1/10^12 ≤ f.filled_size) →
        (∀ (id : InstId) (pos : Position),
          p.positions id = some pos → 1/10^12 ≤ |pos.size|) →
        ∀ (id : InstId) (pos : Position),
          (fills.foldl Portfolio.update p).positions id = some pos →
          1/10^12 ≤ |pos.size| := by
      induction fills with
      | nil => intro p _ hp; exact hp
      | cons f fs ih =>
        intro p hall hp
        exact ih (p.update f) (fun g hg => hall g (List.mem_cons_of_mem f hg))
          (hstep p f (hall f (List.mem_cons_self f fs)) hp)
    intro hall id pos hpos
    exact hgen Portfolio.new hall (fun id pos h => by simp [Portfolio.new] at h)
      id pos hpos

/-- Witness for the amended C9 at a concrete single-fill sequence. -/
theorem C9_witness : (1 : ℚ)/10^12 ≤ |(Position.mk 1).size| :=
  C9_portfolio_threshold.2
    [{ order_id := 1, instrument_id := InstId.BtcUsdtSwap, filled_size := 1,
       acc_filled_size := 1, price := 150, side := true,
       exec_type := ExecType.Taker, state := FillState.Filled }]
    (by intro f hf
        simp only [List.mem_singleton] at hf
        subst hf
        norm_num)
    InstId.BtcUsdtSwap ⟨1⟩ rfl

/-- Insertion into the per-instrument matcher map of `SandboxBroker::new`,
embedded as a keyed association list (models `FxHashMap::insert`: replaces the
value under an existing key, otherwise adds a new entry). -/
def insertMatcher (l : List (InstId × Bbo)) (b : Bbo) : List (InstId × Bbo) :=
  if b.instrument_id ∈ l.map Prod.fst then
    l.map (fun p => if p.1 = b.instrument_id then (p.1, b) else p)
  else
    l ++ [(b.instrument_id, b)]

/-- The initialization loop of `SandboxBroker::new` (ac_core/src/backtest.rs
lines 56-67), for the `D = Bbo` instantiation where `draw_matcher` always
yields the datum itself. The data provider is embedded as the finite list of
the items its stream yields; when the stream is exhausted while
`inst_matcher.len() < instruments.len()`, the source keeps logging an error
and polling the ended stream forever, which is embedded as `none`. On success
it returns the matcher map together with the last matcher timestamp (used to
seed the reporter). `need` is `instruments.len()`. -/
def SandboxBroker.initLoop (need : Nat) :
    List Bbo → List (InstId × Bbo) → Nat → Option (List (InstId × Bbo) × Nat)
  | [], acc, ts =>
    if acc.length < need then none else some (acc, ts)
  | d :: rest, acc, ts =>
    if acc.length < need then
      SandboxBroker.initLoop need rest (insertMatcher acc d) d.ts
    else some (acc, ts)

/-- The keys of the matcher map after an insertion. -/
theorem insertMatcher_keys (l : List (InstId × Bbo)) (b : Bbo) :
    (insertMatcher l b).map Prod.fst =
      if b.instrument_id ∈ l.map Prod.fst then l.map Prod.fst
      else l.map Prod.fst ++ [b.instrument_id] := by
  unfold insertMatcher
  by_cases h : b.instrument_id ∈ l.map Prod.fst
  · rw [if_pos h, if_pos h, List.map_map]
    apply List.map_congr_left
    intro p _
    by_cases hp : p.1 = b.instrument_id
    · simp [Function.comp, hp]
    · simp [Function.comp, hp]
  · rw [if_neg h, if_neg h]
    simp

/-- Key membership after an insertion. -/
theorem insertMatcher_mem_keys (l : List (InstId × Bbo)) (b : Bbo) (a : InstId) :
    a ∈ (insertMatcher l b).map Prod.fst ↔
      a ∈ l.map Prod.fst ∨ a = b.instrument_id := by
  rw [insertMatcher_keys]
  by_cases h : b.instrument_id ∈ l.map Prod.fst
  · rw [if_pos h]
    constructor
    · exact Or.inl
    · rintro (ha | rfl)
      · exact ha
      · exact h
  · rw [if_neg h]
    simp

/-- Insertion preserves distinctness of the map keys. -/
theorem insertMatcher_nodup (l : List (InstId × Bbo)) (b : Bbo)
    (h : (l.map Prod.fst).Nodup) : ((insertMatcher l b).map Prod.fst).Nodup := by
  rw [insertMatcher_keys]
  by_cases hm : b.instrument_id ∈ l.map Prod.fst
  · rw [if_pos hm]
    exact h
  · rw [if_neg hm]
    rw [List.nodup_append]
    refine ⟨h, List.nodup_singleton _, ?_⟩
    intro a ha hb
    simp only [List.mem_singleton] at hb
    subst hb
    exact hm ha

/-- C10 (amended): for a matcher map with distinct keys, the initialization
loop of `SandboxBroker::new` terminates exactly when the number of distinct
instrument ids among the map keys and the stream's matchers reaches
`instruments.len()` — the loop counts distinct instruments seen, whichever
they are, so it can terminate without ever seeing a configured instrument;
and if the stream ends before that count is reached, the loop never returns
(it polls the exhausted stream forever). -/
theorem C10_init_loop (need : Nat) :
    ∀ (data : List Bbo) (acc : List (InstId × Bbo)) (ts : Nat),
      (acc.map Prod.fst).Nodup →
      ((SandboxBroker.initLoop need data acc ts).isSome ↔
        need ≤ (acc.map Prod.fst ++ data.map Bbo.instrument_id).toFinset.card) := by
  intro data
  induction data with
  | nil =>
    intro acc ts hnd
    unfold SandboxBroker.initLoop
    rw [List.map_nil, List.append_nil, List.toFinset_card_of_nodup hnd,
      List.length_map]
    by_cases h : acc.length < need
    · rw [if_pos h]
      simp only [Option.isSome_none, Bool.false_eq_true, false_iff]
      omega
    · rw [if_neg h]
      simp only [Option.isSome_some, true_iff]
      omega
  | cons d rest ih =>
    intro acc ts hnd
    unfold SandboxBroker.initLoop
    by_cases h : acc.length < need
    · rw [if_pos h, ih (insertMatcher acc d) d.ts (insertMatcher_nodup acc d hnd)]
      have hset : ((insertMatcher acc d).map Prod.fst
            ++ rest.map Bbo.instrument_id).toFinset
          = (acc.map Prod.fst ++ (d :: rest).map Bbo.instrument_id).toFinset := by
        apply Finset.ext
        intro a
        simp only [List.toFinset_append, Finset.mem_union, List.mem_toFinset,
          List.map_cons, List.mem_cons, insertMatcher_mem_keys]
        tauto
      rw [hset]
    · rw [if_neg h]
      simp only [Option.isSome_some, true_iff]
      calc need ≤ acc.length := by omega
        _ = (acc.map Prod.fst).toFinset.card := by
              rw [List.toFinset_card_of_nodup hnd, List.length_map]
        _ ≤ (acc.map Prod.fst ++ (d :: rest).map Bbo.instrument_id).toFinset.card := by
              apply Finset.card_le_card
              intro a ha
              simp only [List.toFinset_append, Finset.mem_union]
              exact Or.inl ha

/-- One BBO for an instrument outside the configured set. -/
def bboEth : Bbo :=
  { ts := 1000, instrument_id := InstId.EthUsdtSwap, bid_price := 1,
    bid_size := 1, ask_price := 2, ask_size := 1 }

/-- C10 counterexample: with the configured set `[BtcUsdtSwap]` (length 1) and
a stream containing only an EthUsdtSwap BBO, the initialization loop
terminates even though no matcher for the configured instrument was ever
seen — and hence also returns after the stream ends without BtcUsdtSwap. -/
theorem C10_counterexample :
    SandboxBroker.initLoop 1 [bboEth] [] 0
        = some ([(InstId.EthUsdtSwap, bboEth)], 1000)
    ∧ (InstId.BtcUsdtSwap
        ∈ ([(InstId.EthUsdtSwap, bboEth)].map Prod.fst)) = False := by
  constructor
  · rfl
  · simp

/-- Witness for the amended C10 at a concrete stream. -/
theorem C10_witness : (SandboxBroker.initLoop 1 [bboEth] [] 0).isSome :=
  (C10_init_loop 1 [bboEth] [] 0 List.nodup_nil).mpr (by decide)

/-- Transaction cost model, from `ac_core::backtest::TransactionCostModel`. -/
structure TransactionCostModel where
  maker_fee : ℚ
  taker_fee : ℚ
  slippage : ℚ

/-- `TransactionCostModel::calculate_cost` (ac_core/src/backtest.rs lines
492-504). -/
def TransactionCostModel.calculate_cost (m : TransactionCostModel)
    (fill : Fill) : ℚ :=
  let fee_slippage :=
    if fill.exec_type = ExecType.Taker then (m.taker_fee, m.slippage)
    else (m.maker_fee, 0)
  let price :=
    if fill.side then fill.price * (1 + fee_slippage.2)
    else fill.price * (1 - fee_slippage.2)
  price * fill.filled_size * (1 + fee_slippage.1)
    - fill.price * fill.filled_size

/-- Broker-side event, from `ac_core::BrokerEvent`, instantiated at `D = Bbo`
as in the sandbox backtest. -/
inductive BrokerEvent where
  | Data (data : Bbo)
  | Fill (fill : Fill)
  | Placed (order : Order)
  | Amended (order : Order)
  | Canceled (order_id : Nat)
deriving DecidableEq

/-- The two-valued instrument enumeration, used to iterate the positions map. -/
def InstId.all : List InstId :=
  [InstId.EthUsdtSwap, InstId.BtcUsdtSwap]

/-- `Portfolio::get_value` (ac_core/src/lib.rs lines 292-299). The source
iterates the present entries and unwraps each price lookup; absent entries
contribute zero here, and a missing price (a panic in the source) is embedded
as price 0. -/
def Portfolio.get_value (p : Portfolio) (inst_price : InstId → Option ℚ) : ℚ :=
  (InstId.all.map (fun id =>
    match p.positions id with
    | some pos => pos.size * (inst_price id).getD 0
    | none => 0)).sum

/-- `MatchOrder::get_inst_market_price` (ac_core/src/backtest.rs lines
284-289) for the `Bbo` matcher. -/
def Bbo.get_inst_market_price (inst_data : InstId → Option Bbo) :
    InstId → Option ℚ :=
  fun id => (inst_data id).map Bbo.market_price

/-- Sandbox broker state, from `ac_core::backtest::SandboxBroker` at
`D = M = Bbo`. The data provider is not part of the state: the data step is
modelled as a function of the state and the next stream item. -/
structure SandboxBroker where
  limit_orders : List (Nat × LimitOrder)
  broker_events_buf : List BrokerEvent
  inst_matcher : InstId → Option Bbo
  ts : Nat
  cash : ℚ
  transaction_cost_model : TransactionCostModel
  portfolio : Portfolio
  reporter : Reporter

/-- `SandboxBroker::get_total_value` (ac_core/src/backtest.rs lines 132-135). -/
def SandboxBroker.get_total_value (s : SandboxBroker) : ℚ :=
  s.portfolio.get_value (Bbo.get_inst_market_price s.inst_matcher) + s.cash

/-- `SandboxBroker::on_fill` (ac_core/src/backtest.rs lines 89-102). -/
def SandboxBroker.on_fill (s : SandboxBroker) (fill : Fill) : SandboxBroker :=
  let cost := s.transaction_cost_model.calculate_cost fill
  let cash := s.cash - cost
  let cash :=
    if fill.side then cash - fill.price * fill.filled_size
    else cash + fill.price * fill.filled_size
  let s' := { s with cash := cash, portfolio := s.portfolio.update fill }
  { s' with reporter := s'.reporter.insert s'.ts s'.get_total_value }

/-- `SandboxBroker::try_fill_placed_orders` (ac_core/src/backtest.rs lines
114-130): collect every working order that the Maker matching fills, then
remove each, run fill accounting, and push one Fill event apiece. The
`FxHashMap` of working orders is embedded as a keyed association list, whose
order stands for the map's iteration order. -/
def SandboxBroker.try_fill_placed_orders (s : SandboxBroker) : SandboxBroker :=
  let filled_orders := s.limit_orders.filterMap (fun p =>
    (Bbo.try_fill_limit_order s.inst_matcher p.2 ExecType.Maker).map
      (fun fill => (p.1, fill)))
  filled_orders.foldl (fun s pr =>
    let s₁ := { s with limit_orders := s.limit_orders.filter (fun q => q.1 != pr.1) }
    let s₂ := s₁.on_fill pr.2
    { s₂ with broker_events_buf := s₂.broker_events_buf ++ [BrokerEvent.Fill pr.2] })
    s

/-- `SandboxBroker::on_data` (ac_core/src/backtest.rs lines 104-111) at
`D = Bbo`, where `draw_matcher` always yields the datum itself. -/
def SandboxBroker.on_data (s : SandboxBroker) (new_data : Bbo) : SandboxBroker :=
  let s₁ := { s with ts := new_data.ts }
  let s₂ := { s₁ with inst_matcher := fun i =>
    if i = new_data.instrument_id then some new_data else s₁.inst_matcher i }
  s₂.try_fill_placed_orders

/-- The data branch of `<SandboxBroker as Stream>::poll_next`
(ac_core/src/backtest.rs lines 182-188): process the datum, then push the
Data event; the stream then pops events from the front of the buffer, so the
buffer order is the emission order. -/
def SandboxBroker.poll_next_data_step (s : SandboxBroker) (data : Bbo) :
    SandboxBroker :=
  let s₁ := s.on_data data
  { s₁ with broker_events_buf := s₁.broker_events_buf ++ [BrokerEvent.Data data] }

/-- The matcher map right after a data step replaces the instrument's BBO. -/
def SandboxBroker.matcherAfter (s : SandboxBroker) (d : Bbo) :
    InstId → Option Bbo :=
  fun i => if i = d.instrument_id then some d else s.inst_matcher i

/-- The fills a data step generates from the working orders, in map order. -/
def SandboxBroker.dataStepFills (s : SandboxBroker) (d : Bbo) : List Fill :=
  (s.limit_orders.filterMap (fun p =>
    (Bbo.try_fill_limit_order (s.matcherAfter d) p.2 ExecType.Maker).map
      (fun fill => (p.1, fill)))).map Prod.snd

/-- Fill accounting does not touch the event buffer. -/
theorem SandboxBroker.on_fill_buf (s : SandboxBroker) (fill : Fill) :
    (s.on_fill fill).broker_events_buf = s.broker_events_buf :=
  rfl

/-- The fill loop appends exactly one Fill event per filled order, in order. -/
theorem SandboxBroker.fill_foldl_buf :
    ∀ (l : List (Nat × Fill)) (s : SandboxBroker),
    (l.foldl (fun s pr =>
      let s₁ := { s with limit_orders := s.limit_orders.filter (fun q => q.1 != pr.1) }
      let s₂ := s₁.on_fill pr.2
      { s₂ with broker_events_buf := s₂.broker_events_buf ++ [BrokerEvent.Fill pr.2] })
      s).broker_events_buf
    = s.broker_events_buf ++ l.map (fun pr => BrokerEvent.Fill pr.2) := by
  intro l
  induction l with
  | nil =>
    intro s
    simp
  | cons pr rest ih =>
    intro s
    rw [List.foldl_cons, ih, List.map_cons]
    show s.broker_events_buf ++ [BrokerEvent.Fill pr.2]
        ++ List.map (fun pr => BrokerEvent.Fill pr.2) rest
      = s.broker_events_buf ++ (BrokerEvent.Fill pr.2
        :: List.map (fun pr => BrokerEvent.Fill pr.2) rest)
    rw [List.append_assoc]
    rfl

/-- C7: on every data step of the sandbox broker, the event buffer after the
step is the old buffer, then one Fill event per order matched against the new
BBO (in map order), then the Data event carrying the triggering item; since
`poll_next` emits from the front of the buffer, every Fill generated by the
step is emitted before that Data event. -/
theorem C7_fills_before_data (s : SandboxBroker) (d : Bbo) :
    (s.poll_next_data_step d).broker_events_buf
      = s.broker_events_buf
        ++ (s.dataStepFills d).map BrokerEvent.Fill
        ++ [BrokerEvent.Data d] := by
  show (s.on_data d).broker_events_buf ++ [BrokerEvent.Data d]
    = s.broker_events_buf ++ (s.dataStepFills d).map BrokerEvent.Fill
      ++ [BrokerEvent.Data d]
  unfold SandboxBroker.on_data SandboxBroker.try_fill_placed_orders
  rw [SandboxBroker.fill_foldl_buf]
  unfold SandboxBroker.dataStepFills
  rw [List.map_map]
  rfl

/-- State of the `AutoReconnect` sink wrapper
(data_center/src/utils.rs): the unbounded `sink_buf`, the index of the
current connection (incremented on every reconnect), the current connection's
send count, the items every connection so far has accepted (in acceptance
order), and the reconnect counter. The abstract inner sink decides success of
a `start_send` from the connection index and its send count (`sendOk`);
Scenario F's stub that errors after N sends is `sendOk i n := n < N`. -/
structure ARState (α : Type) where
  buf : List α
  connIdx : Nat
  sent : Nat
  delivered : List α
  reconnects : Nat
deriving DecidableEq

/-- One iteration of the drain loop of `AutoReconnect::poll_flush`
(data_center/src/utils.rs lines 259-276) on a nonempty buffer: pop the front
item and `start_send` it on the inner sink; on success the item is accepted;
on error the source pushes the item BACK onto the buffer (`push_back`) and
tears down and remakes the connection (the reconnect future is modelled as
resolving immediately). -/
def AutoReconnect.flushStep (sendOk : Nat → Nat → Bool) (s : ARState α) :
    ARState α :=
  match s.buf with
  | [] => s
  | item :: rest =>
    if sendOk s.connIdx s.sent then
      { s with buf := rest, sent := s.sent + 1,
               delivered := s.delivered ++ [item] }
    else
      { s with buf := rest ++ [item], connIdx := s.connIdx + 1, sent := 0,
               reconnects := s.reconnects + 1 }

/-- The full drain loop of `poll_flush` with fuel: `some` when the buffer
empties (the flush then delegates to the inner sink's own `poll_flush`),
`none` when the fuel runs out while items remain. -/
def AutoReconnect.flushFuel (sendOk : Nat → Nat → Bool) :
    Nat → ARState α → Option (ARState α)
  | 0, s =>
    match s.buf with
    | [] => some s
    | _ :: _ => none
  | fuel + 1, s =>
    match s.buf with
    | [] => some s
    | _ :: _ => AutoReconnect.flushFuel sendOk fuel
        (AutoReconnect.flushStep sendOk s)

/-- C4 counterexample: with two buffered items and an inner sink whose first
connection errors immediately, the errored item is re-enqueued at the tail,
so the replacement connection receives [2, 1] — not the original send order
[1, 2] the claim requires. -/
theorem C4_counterexample :
    AutoReconnect.flushFuel (fun i _ => i != 0) 10
      ({ buf := [1, 2], connIdx := 0, sent := 0, delivered := [],
         reconnects := 0 } : ARState Nat)
      = some { buf := [], connIdx := 1, sent := 2, delivered := [2, 1],
               reconnects := 1 }
    ∧ [2, 1] ≠ [1, 2] := by
  exact ⟨rfl, by decide⟩

/-- Unfolding of one drain iteration when the inner send succeeds. -/
theorem AutoReconnect.flushStep_pos {α : Type} (sendOk : Nat → Nat → Bool)
    (s : ARState α) (item : α) (rest : List α) (hbuf : s.buf = item :: rest)
    (hok : sendOk s.connIdx s.sent = true) :
    AutoReconnect.flushStep sendOk s
      = { s with buf := rest, sent := s.sent + 1,
                 delivered := s.delivered ++ [item] } := by
  cases s with
  | mk buf connIdx sent delivered reconnects =>
    simp only at hbuf hok
    subst hbuf
    simp [AutoReconnect.flushStep, hok]

/-- Unfolding of one drain iteration when the inner send errors. -/
theorem AutoReconnect.flushStep_neg {α : Type} (sendOk : Nat → Nat → Bool)
    (s : ARState α) (item : α) (rest : List α) (hbuf : s.buf = item :: rest)
    (hok : sendOk s.connIdx s.sent = false) :
    AutoReconnect.flushStep sendOk s
      = { s with buf := rest ++ [item], connIdx := s.connIdx + 1, sent := 0,
                 reconnects := s.reconnects + 1 } := by
  cases s with
  | mk buf connIdx sent delivered reconnects =>
    simp only at hbuf hok
    subst hbuf
    simp [AutoReconnect.flushStep, hok]

/-- The drain loop on an empty buffer completes immediately. -/
theorem AutoReconnect.flushFuel_nil {α : Type} (sendOk : Nat → Nat → Bool)
    (fuel : Nat) (s : ARState α) (hbuf : s.buf = []) :
    AutoReconnect.flushFuel sendOk fuel s = some s := by
  cases s with
  | mk buf connIdx sent delivered reconnects =>
    simp only at hbuf
    subst hbuf
    cases fuel with
    | zero => rfl
    | succ n => rfl

/-- The drain loop on a nonempty buffer performs one iteration. -/
theorem AutoReconnect.flushFuel_cons {α : Type} (sendOk : Nat → Nat → Bool)
    (fuel : Nat) (s : ARState α) (item : α) (rest : List α)
    (hbuf : s.buf = item :: rest) :
    AutoReconnect.flushFuel sendOk (fuel + 1) s
      = AutoReconnect.flushFuel sendOk fuel
          (AutoReconnect.flushStep sendOk s) := by
  cases s with
  | mk buf connIdx sent delivered reconnects =>
    simp only at hbuf
    subst hbuf
    rfl

/-- C4 (amended): when the inner sink errors on an item, `poll_flush`
re-enqueues that item at the TAIL of the buffer (`push_back`) and triggers a
reconnect; every buffered item survives: whenever the drain completes, the
items accepted across connections are a permutation of the previously
accepted ones plus the buffer (so nothing is lost, but the original send
order is not preserved in general); and if some connection accepts every
send, the drain does complete. -/
theorem C4_flush_semantics {α : Type} (sendOk : Nat → Nat → Bool) :
    (∀ (s : ARState α) (item : α) (rest : List α),
        s.buf = item :: rest → sendOk s.connIdx s.sent = false →
        AutoReconnect.flushStep sendOk s
          = { s with buf := rest ++ [item], connIdx := s.connIdx + 1,
                     sent := 0, reconnects := s.reconnects + 1 })
    ∧ (∀ (fuel : Nat) (s s' : ARState α),
        AutoReconnect.flushFuel sendOk fuel s = some s' →
        s'.buf = [] ∧ s'.delivered.Perm (s.delivered ++ s.buf))
    ∧ (∀ i0 : Nat, (∀ n, sendOk i0 n = true) →
        ∀ (fuel : Nat) (s : ARState α), s.connIdx ≤ i0 →
        (i0 - s.connIdx) + s.buf.length < fuel →
        (AutoReconnect.flushFuel sendOk fuel s).isSome) := by
  refine ⟨AutoReconnect.flushStep_neg sendOk, ?_, ?_⟩
  · intro fuel
    induction fuel with
    | zero =>
      intro s s' h
      cases hbuf : s.buf with
      | nil =>
        rw [AutoReconnect.flushFuel_nil sendOk 0 s hbuf] at h
        simp only [Option.some.injEq] at h
        subst h
        exact ⟨hbuf, by simp⟩
      | cons a l =>
        unfold AutoReconnect.flushFuel at h
        rw [hbuf] at h
        exact absurd h (by simp)
    | succ n ih =>
      intro s s' h
      cases hbuf : s.buf with
      | nil =>
        rw [AutoReconnect.flushFuel_nil sendOk (n + 1) s hbuf] at h
        simp only [Option.some.injEq] at h
        subst h
        exact ⟨hbuf, by simp⟩
      | cons item rest =>
        rw [AutoReconnect.flushFuel_cons sendOk n s item rest hbuf] at h
        have hstep := ih _ _ h
        refine ⟨hstep.1, hstep.2.trans ?_⟩
        by_cases hok : sendOk s.connIdx s.sent
        · rw [AutoReconnect.flushStep_pos sendOk s item rest hbuf hok]
          show ((s.delivered ++ [item]) ++ rest).Perm (s.delivered ++ item :: rest)
          rw [List.append_assoc]
          exact List.Perm.refl _
        · rw [AutoReconnect.flushStep_neg sendOk s item rest hbuf
            (Bool.not_eq_true _ ▸ hok)]
          show (s.delivered ++ (rest ++ [item])).Perm (s.delivered ++ item :: rest)
          exact List.Perm.append_left s.delivered
            (List.perm_append_singleton item rest)
  · intro i0 hall fuel
    induction fuel with
    | zero =>
      intro s hc hm
      omega
    | succ n ih =>
      intro s hc hm
      cases hbuf : s.buf with
      | nil =>
        rw [AutoReconnect.flushFuel_nil sendOk (n + 1) s hbuf]
        rfl
      | cons item rest =>
        rw [AutoReconnect.flushFuel_cons sendOk n s item rest hbuf]
        rw [hbuf] at hm
        simp only [List.length_cons] at hm
        by_cases hok : sendOk s.connIdx s.sent
        · rw [AutoReconnect.flushStep_pos sendOk s item rest hbuf hok]
          apply ih
          · exact hc
          · simp only [List.length_cons] at *
            omega
        · have hne : s.connIdx ≠ i0 := by
            intro heq
            rw [heq, hall s.sent] at hok
            exact hok rfl
          rw [AutoReconnect.flushStep_neg sendOk s item rest hbuf
            (Bool.not_eq_true _ ▸ hok)]
          apply ih
          · simp only
            omega
          · simp only [List.length_append, List.length_cons]
            simp only [List.length_nil]
            omega

/-- Witness for the amended C4: the survival permutation at the concrete
counterexample run. -/
theorem C4_witness : ([2, 1] : List Nat).Perm ([] ++ [1, 2]) :=
  ((C4_flush_semantics (fun i _ => i != 0)).2.1 10
    { buf := [1, 2], connIdx := 0, sent := 0, delivered := [], reconnects := 0 }
    { buf := [], connIdx := 1, sent := 2, delivered := [2, 1], reconnects := 1 }
    rfl).2

/-- Modelled from the spec: the numeric helper `truncate_f64` of
`ac_core::utils` is referenced by the executor but absent from the provided
sources; the spec specifies truncation to `digits` decimal places
("truncate(notional / bid_price, size_digits)", f64::trunc is toward zero). -/
def truncate_f64 (x : ℚ) (digits : ℤ) : ℚ :=
  (if 0 ≤ x * (10 : ℚ) ^ digits then ((⌊x * (10 : ℚ) ^ digits⌋ : ℤ) : ℚ)
   else ((⌈x * (10 : ℚ) ^ digits⌉ : ℤ) : ℚ)) / (10 : ℚ) ^ digits

/-- Modelled from the spec: the numeric helper `round_f64` of
`ac_core::utils` is referenced by the executor but absent from the provided
sources; the spec specifies rounding to `digits` decimal places (f64::round
is half away from zero). -/
def round_f64 (x : ℚ) (digits : ℤ) : ℚ :=
  (if 0 ≤ x * (10 : ℚ) ^ digits then ((⌊x * (10 : ℚ) ^ digits + 1/2⌋ : ℤ) : ℚ)
   else ((⌈x * (10 : ℚ) ^ digits - 1/2⌉ : ℤ) : ℚ)) / (10 : ℚ) ^ digits

/-- Modelled from the spec: `get_side_size_from_raw_size` of `ac_core::utils`
is referenced by the executor but absent from the provided sources; it splits
a signed size into (side, magnitude), mirroring `LimitOrder::from_raw_size`
(buy for positive raw size). -/
def get_side_size_from_raw_size (raw_size : ℚ) : Bool × ℚ :=
  if 0 < raw_size then (true, raw_size) else (false, -raw_size)

/-- Modelled from the spec: `LimitOrder::modified` is called by the executor's
amend path but absent from the provided sources; per the spec's amend
semantics it sets the working quantity to `new_size` on top of the filled
part and moves the price (the same mutation as `LimitOrder::amended`). -/
def LimitOrder.modified (o : LimitOrder) (new_size new_price : ℚ) : LimitOrder :=
  { o with size := o.filled_size + new_size, price := new_price }

/-- Client-side events in the vocabulary used by `NaiveLimitExecutor`
(ac_core/src/strategy/executors.rs): place, modify, or cancel by order id. -/
inductive ClientEvent where
  | PlaceOrder (order : Order)
  | ModifyOrder (order : Order)
  | CancelOrder (order_id : Nat)
deriving DecidableEq

/-- `ClientEvent::place_limit_order` (ac_core/src/lib.rs). -/
def ClientEvent.place_limit_order (o : LimitOrder) : ClientEvent :=
  ClientEvent.PlaceOrder (Order.Limit o)

/-- Executor state, from `ac_core::strategy::executors::NaiveLimitExecutor`. -/
structure NaiveLimitExecutor where
  instrument_id : InstId
  notional : ℚ
  size_digits : ℤ
  size_eps : ℚ
  price_digits : ℤ
  notional_threshold : ℚ
  price_offset : ℚ
  bbo : Bbo
  last_signal : Option Signal
  last_signal_ts : Nat
  holding_duration : Nat
  last_event_ts : Nat
  event_interval : Nat
  position : Position
  placed_order : Option LimitOrder
  next_order_id_body : Nat
  order_id_offset : Nat
deriving DecidableEq

/-- `NaiveLimitExecutor::new` (ac_core/src/strategy/executors.rs lines 48-71);
remaining fields take their `Default` values (the default BBO carries the
enum's first variant). Durations are in milliseconds. -/
def NaiveLimitExecutor.new (instrument_id : InstId) (notional : ℚ)
    (size_digits price_digits : ℤ) (price_offset : ℚ)
    (holding_duration event_interval order_id_offset : Nat) :
    NaiveLimitExecutor :=
  { instrument_id := instrument_id, notional := notional,
    size_digits := size_digits,
    size_eps := (10 : ℚ) ^ (-size_digits),
    price_digits := price_digits,
    notional_threshold := (5 / 100) * notional,
    price_offset := price_offset,
    bbo := { ts := 0, instrument_id := InstId.EthUsdtSwap, bid_price := 0,
             bid_size := 0, ask_price := 0, ask_size := 0 },
    last_signal := none, last_signal_ts := 0,
    holding_duration := holding_duration, last_event_ts := 0,
    event_interval := event_interval, position := ⟨0⟩, placed_order := none,
    next_order_id_body := 0, order_id_offset := order_id_offset }

/-- `NaiveLimitExecutor::get_ideal_position` (ac_core/src/strategy/executors.rs
lines 73-100). The source's `self.bbo.ts - self.last_signal_ts` u64 difference
is truncated `Nat` subtraction. -/
def NaiveLimitExecutor.get_ideal_position (e : NaiveLimitExecutor)
    (signal : Option Signal) : Position :=
  match signal with
  | none =>
    if e.position.is_clear e.size_digits then e.position
    else if e.holding_duration ≤ e.bbo.ts - e.last_signal_ts then Position.new 0
    else e.position
  | some Signal.Long =>
    Position.new (truncate_f64 (e.notional / e.bbo.bid_price) e.size_digits)
  | some Signal.Short =>
    Position.new (truncate_f64 (-e.notional / e.bbo.ask_price) e.size_digits)

/-- `NaiveLimitExecutor::gen_order` (ac_core/src/strategy/executors.rs lines
109-123), with `get_next_order_id` (lines 102-107) inlined: the order id is
`(next_order_id_body << 16) | order_id_offset` and the counter is bumped. -/
def NaiveLimitExecutor.gen_order (e : NaiveLimitExecutor) (raw_size price : ℚ) :
    NaiveLimitExecutor × Option LimitOrder :=
  if approx_eq raw_size 0 e.size_eps then (e, none)
  else if |raw_size| * price < e.notional_threshold then (e, none)
  else
    ({ e with next_order_id_body := e.next_order_id_body + 1 },
     some (LimitOrder.from_raw_size raw_size
       ((e.next_order_id_body <<< 16) ||| e.order_id_offset)
       e.instrument_id price))

/-- `NaiveLimitExecutor::get_event_from_target_order`
(ac_core/src/strategy/executors.rs lines 126-170). -/
def NaiveLimitExecutor.get_event_from_target_order (e : NaiveLimitExecutor)
    (raw_size price : ℚ) : NaiveLimitExecutor × List ClientEvent :=
  match e.placed_order with
  | none =>
    let r := e.gen_order raw_size price
    ({ r.1 with placed_order := r.2 },
     (r.2.map ClientEvent.place_limit_order).toList)
  | some old_order =>
    if approx_eq 0 raw_size e.size_eps then
      ({ e with placed_order := none },
       [ClientEvent.CancelOrder old_order.order_id])
    else
      let ss := get_side_size_from_raw_size raw_size
      if ss.1 = old_order.side then
        if ¬ approx_eq old_order.unfilled_size ss.2 e.size_eps = true
            ∨ old_order.price ≠ price then
          let modified_order := old_order.modified ss.2 price
          ({ e with placed_order := some modified_order },
           [ClientEvent.ModifyOrder (Order.Limit modified_order)])
        else (e, [])
      else
        let r := e.gen_order raw_size price
        ({ r.1 with placed_order := r.2 },
         ClientEvent.CancelOrder old_order.order_id
           :: (r.2.map ClientEvent.place_limit_order).toList)

/-- `NaiveLimitExecutor::calc_target_order_arg`
(ac_core/src/strategy/executors.rs lines 172-181). -/
def NaiveLimitExecutor.calc_target_order_arg (e : NaiveLimitExecutor)
    (target_position : Position) : ℚ × ℚ :=
  (target_position.size - e.position.size,
   round_f64
     (if 0 < target_position.size - e.position.size then
        e.bbo.bid_price + e.price_offset
      else e.bbo.ask_price - e.price_offset)
     e.price_digits)

/-- The `Data` arm of `<NaiveLimitExecutor as Executor>::update`
(ac_core/src/strategy/executors.rs lines 185-193). -/
def NaiveLimitExecutor.update_data (e : NaiveLimitExecutor) (bbo : Bbo) :
    NaiveLimitExecutor :=
  { e with bbo := bbo }

/-- The `Fill` arm of `<NaiveLimitExecutor as Executor>::update`. -/
def NaiveLimitExecutor.update_fill (e : NaiveLimitExecutor) (fill : Fill) :
    NaiveLimitExecutor :=
  { e with placed_order := e.placed_order.bind (fun o => o.fill fill),
           position := e.position.update fill }

/-- `<NaiveLimitExecutor as Executor>::on_signal`
(ac_core/src/strategy/executors.rs lines 195-223): an early return suppresses
any tick arriving within `event_interval` of the last emitted batch BEFORE
any state update; otherwise compute the target position, target order, and
events, then update the signal state, and stamp `last_event_ts` when the
batch is non-empty. -/
def NaiveLimitExecutor.on_signal (e : NaiveLimitExecutor)
    (signal : Option Signal) : NaiveLimitExecutor × List ClientEvent :=
  if e.bbo.ts - e.last_event_ts < e.event_interval then (e, [])
  else
    match e.get_event_from_target_order
        (e.calc_target_order_arg (e.get_ideal_position signal)).1
        (e.calc_target_order_arg (e.get_ideal_position signal)).2 with
    | (e₁, events) =>
      ({ e₁ with
           last_signal := signal,
           last_signal_ts := if signal.isSome then e₁.bbo.ts
                             else e₁.last_signal_ts,
           last_event_ts := if events.isEmpty then e₁.last_event_ts
                            else e₁.bbo.ts },
       events)

/-- `gen_order` never touches the cached BBO or the cooling interval. -/
theorem NaiveLimitExecutor.gen_order_fields (e : NaiveLimitExecutor)
    (r p : ℚ) :
    (e.gen_order r p).1.bbo = e.bbo
    ∧ (e.gen_order r p).1.event_interval = e.event_interval := by
  unfold NaiveLimitExecutor.gen_order
  split
  · exact ⟨rfl, rfl⟩
  · split
    · exact ⟨rfl, rfl⟩
    · exact ⟨rfl, rfl⟩

/-- `get_event_from_target_order` never touches the cached BBO or the cooling
interval. -/
theorem NaiveLimitExecutor.gefto_fields (e : NaiveLimitExecutor) (rs ps : ℚ) :
    (e.get_event_from_target_order rs ps).1.bbo = e.bbo
    ∧ (e.get_event_from_target_order rs ps).1.event_interval
        = e.event_interval := by
  unfold NaiveLimitExecutor.get_event_from_target_order
  cases hpo : e.placed_order with
  | none =>
    simp only
    exact ⟨(e.gen_order_fields rs ps).1, (e.gen_order_fields rs ps).2⟩
  | some old_order =>
    simp only
    split_ifs <;>
      first
        | exact ⟨rfl, rfl⟩
        | exact ⟨(e.gen_order_fields rs ps).1, (e.gen_order_fields rs ps).2⟩

/-- `on_signal` on a cooling tick returns the state unchanged with no events. -/
theorem NaiveLimitExecutor.on_signal_cooling (e : NaiveLimitExecutor)
    (signal : Option Signal)
    (h : e.bbo.ts - e.last_event_ts < e.event_interval) :
    e.on_signal signal = (e, []) := by
  unfold NaiveLimitExecutor.on_signal
  rw [if_pos h]

/-- `on_signal` outside cooling, in terms of the reconciliation result. -/
theorem NaiveLimitExecutor.on_signal_main (e : NaiveLimitExecutor)
    (signal : Option Signal)
    (h : ¬ e.bbo.ts - e.last_event_ts < e.event_interval)
    (e₁ : NaiveLimitExecutor) (events : List ClientEvent)
    (hr : e.get_event_from_target_order
        (e.calc_target_order_arg (e.get_ideal_position signal)).1
        (e.calc_target_order_arg (e.get_ideal_position signal)).2
      = (e₁, events)) :
    e.on_signal signal
      = ({ e₁ with
             last_signal := signal,
             last_signal_ts := if signal.isSome then e₁.bbo.ts
                               else e₁.last_signal_ts,
             last_event_ts := if events.isEmpty then e₁.last_event_ts
                              else e₁.bbo.ts },
         events) := by
  unfold NaiveLimitExecutor.on_signal
  rw [if_neg h, hr]

/-- C5 (amended): after an `on_signal` call that returns a non-empty batch,
`last_event_ts` is stamped with the data timestamp, and every subsequent
signal tick whose data timestamp is less than `event_interval` later returns
an empty batch AND leaves the executor state entirely unchanged — the early
return precedes all state updates, so suppressed ticks do not update
`last_signal` or `last_signal_ts`. -/
theorem C5_cooling_suppresses_state (e : NaiveLimitExecutor)
    (signal : Option Signal) (hne : (e.on_signal signal).2 ≠ []) :
    (e.on_signal signal).1.last_event_ts = e.bbo.ts
    ∧ ∀ (bbo' : Bbo) (signal' : Option Signal),
        bbo'.ts - e.bbo.ts < e.event_interval →
        ((e.on_signal signal).1.update_data bbo').on_signal signal'
          = ((e.on_signal signal).1.update_data bbo', []) := by
  by_cases hcool : e.bbo.ts - e.last_event_ts < e.event_interval
  · rw [NaiveLimitExecutor.on_signal_cooling e signal hcool] at hne
    exact absurd rfl hne
  · rcases hr : e.get_event_from_target_order
        (e.calc_target_order_arg (e.get_ideal_position signal)).1
        (e.calc_target_order_arg (e.get_ideal_position signal)).2
      with ⟨e₁, events⟩
    have heq := NaiveLimitExecutor.on_signal_main e signal hcool e₁ events hr
    rw [heq] at hne ⊢
    have hbbo : e₁.bbo = e.bbo := by
      have h' := (NaiveLimitExecutor.gefto_fields e
        (e.calc_target_order_arg (e.get_ideal_position signal)).1
        (e.calc_target_order_arg (e.get_ideal_position signal)).2).1
      rw [hr] at h'
      exact h'
    have hint : e₁.event_interval = e.event_interval := by
      have h' := (NaiveLimitExecutor.gefto_fields e
        (e.calc_target_order_arg (e.get_ideal_position signal)).1
        (e.calc_target_order_arg (e.get_ideal_position signal)).2).2
      rw [hr] at h'
      exact h'
    have hie : events.isEmpty = false := by
      cases events with
      | nil => exact absurd rfl hne
      | cons a l => rfl
    constructor
    · show (if events.isEmpty then e₁.last_event_ts else e₁.bbo.ts) = e.bbo.ts
      rw [hie]
      simp [hbbo]
    · intro bbo' signal' hlt
      apply NaiveLimitExecutor.on_signal_cooling
      show bbo'.ts - (if events.isEmpty then e₁.last_event_ts else e₁.bbo.ts)
          < e₁.event_interval
      rw [hie]
      simpa [hbbo, hint] using hlt

/-- A concrete executor state: event_interval 5000 ms, a clear position, a
working order (id 7), a BBO at ts 10000, and the last batch long past. -/
def C5exec : NaiveLimitExecutor :=
  { instrument_id := InstId.EthUsdtSwap, notional := 1000, size_digits := 2,
    size_eps := 1/100, price_digits := 2, notional_threshold := 50,
    price_offset := 0,
    bbo := { ts := 10000, instrument_id := InstId.EthUsdtSwap,
             bid_price := 100, bid_size := 10, ask_price := 101,
             ask_size := 10 },
    last_signal := none, last_signal_ts := 9000, holding_duration := 100000,
    last_event_ts := 0, event_interval := 5000,
    position := ⟨0⟩,
    placed_order := some { order_id := 7, instrument_id := InstId.EthUsdtSwap,
                           price := 99, size := 1, filled_size := 0,
                           side := true },
    next_order_id_body := 1, order_id_offset := 123 }

/-- The next BBO, arriving 1000 ms later (inside the 5000 ms interval). -/
def C5bbo2 : Bbo :=
  { ts := 11000, instrument_id := InstId.EthUsdtSwap, bid_price := 100,
    bid_size := 10, ask_price := 101, ask_size := 10 }

/-- Evaluation of the first (unsuppressed) tick on `C5exec`: the clear
position with a signal-less tick cancels the working order, a non-empty
batch, and stamps `last_event_ts`. -/
theorem C5exec_on_signal_eq :
    C5exec.on_signal none
      = ({ C5exec with placed_order := none, last_event_ts := 10000 },
         [ClientEvent.CancelOrder 7]) := by
  unfold NaiveLimitExecutor.on_signal NaiveLimitExecutor.get_event_from_target_order
    NaiveLimitExecutor.calc_target_order_arg NaiveLimitExecutor.get_ideal_position
    Position.is_clear approx_eq C5exec
  norm_num

/-- C5 counterexample: on `C5exec` a signal-less tick emits a non-empty batch
(cancelling the working order); the next tick, 1000 ms < event_interval
later and carrying a Short signal, is suppressed — and, contrary to the
claim, it does NOT update the signal state: `last_signal` stays `none`
(not `some Short`) and `last_signal_ts` is not moved to the tick's
timestamp. -/
theorem C5_counterexample :
    (C5exec.on_signal none).2 ≠ []
    ∧ (((C5exec.on_signal none).1.update_data C5bbo2).on_signal
        (some Signal.Short)).2 = []
    ∧ (((C5exec.on_signal none).1.update_data C5bbo2).on_signal
        (some Signal.Short)).1.last_signal ≠ some Signal.Short
    ∧ (((C5exec.on_signal none).1.update_data C5bbo2).on_signal
        (some Signal.Short)).1.last_signal_ts ≠ C5bbo2.ts := by
  have h2 : ((C5exec.on_signal none).1.update_data C5bbo2).on_signal
        (some Signal.Short)
      = ((C5exec.on_signal none).1.update_data C5bbo2, []) := by
    rw [C5exec_on_signal_eq]
    apply NaiveLimitExecutor.on_signal_cooling
    decide
  refine ⟨?_, ?_, ?_, ?_⟩
  · rw [C5exec_on_signal_eq]
    simp
  · rw [h2]
  · rw [h2, C5exec_on_signal_eq]
    decide
  · rw [h2, C5exec_on_signal_eq]
    decide

/-- Witness for the amended C5: the suppressed tick at the concrete state. -/
theorem C5_witness :
    ((C5exec.on_signal none).1.update_data C5bbo2).on_signal
        (some Signal.Short)
      = ((C5exec.on_signal none).1.update_data C5bbo2, []) :=
  (C5_cooling_suppresses_state C5exec none
    (by rw [C5exec_on_signal_eq]; simp)).2 C5bbo2 (some Signal.Short) (by decide)

/-- Exponential moving average, from `ac_core::strategy::calc::Ema`. The
float exponential is abstracted as the parameter `fexp`; the smoothing factor
is `alpha = 1 - exp(-dt/tau)`. The source also returns the new mean, which
its caller discards in favour of re-reading `mean()`. -/
structure Ema where
  tau : ℚ
  mean : Option ℚ
deriving DecidableEq

/-- `Ema::update` (ac_core/src/strategy/calc.rs lines 23-34). -/
def Ema.update (fexp : ℚ → ℚ) (e : Ema) (sample dt : ℚ) : Ema :=
  let alpha := 1 - fexp (-(dt / e.tau))
  { e with mean := some (match e.mean with
      | some m => m * (1 - alpha) + sample * alpha
      | none => sample) }

/-- EMA plus running variance, from `ac_core::strategy::calc::Emav`. -/
structure Emav where
  tau : ℚ
  mean : Option ℚ
  mean_sq : Option ℚ
deriving DecidableEq

/-- `Emav::update` (ac_core/src/strategy/calc.rs lines 68-86). -/
def Emav.update (fexp : ℚ → ℚ) (e : Emav) (sample dt : ℚ) : Emav :=
  let alpha := 1 - fexp (-(dt / e.tau))
  { e with
    mean := some (match e.mean with
      | some m => m * (1 - alpha) + sample * alpha
      | none => sample),
    mean_sq := some (match e.mean_sq with
      | some msq => msq * (1 - alpha) + sample * sample * alpha
      | none => sample * sample) }

/-- `Emav::variance` (ac_core/src/strategy/calc.rs lines 94-99):
`E[x^2] - E[x]^2`, floored at zero. -/
def Emav.variance (e : Emav) : Option ℚ :=
  match e.mean, e.mean_sq with
  | some m, some msq => some (max (msq - m * m) 0)
  | _, _ => none

/-- Signaler working state, from
`ac_core::strategy::single_ticker::ofi_momentum::Variables`. -/
structure Variables where
  bbo : Bbo
  ofi : Ema
  eam_ofi : Emav
deriving DecidableEq

/-- `Variables::new` (ofi_momentum.rs lines 43-49). -/
def Variables.new (bbo : Bbo) (window_ofi window_ema_ofi : Nat) : Variables :=
  { bbo := bbo,
    ofi := { tau := (window_ofi : ℚ), mean := none },
    eam_ofi := { tau := (window_ema_ofi : ℚ), mean := none, mean_sq := none } }

/-- `Variables::update` (ofi_momentum.rs lines 51-73): the order-flow
imbalance contribution of the new BBO, then both EMAs updated with
`dt = ts_new - ts_old`. The source's `self.ofi.mean().unwrap()` right after
the update always finds `Some`, embedded as `getD 0`. -/
def Variables.update (fexp : ℚ → ℚ) (v : Variables) (bbo : Bbo) : Variables :=
  let ofi_segment :=
    (if v.bbo.bid_price ≤ bbo.bid_price then bbo.bid_size else 0)
    - (if bbo.bid_price ≤ v.bbo.bid_price then v.bbo.bid_size else 0)
    - (if bbo.ask_price ≤ v.bbo.ask_price then bbo.ask_size else 0)
    + (if v.bbo.ask_price ≤ bbo.ask_price then v.bbo.ask_size else 0)
  let dt := ((bbo.ts - v.bbo.ts : Nat) : ℚ)
  let ofi' := Ema.update fexp v.ofi ofi_segment dt
  let eam' := Emav.update fexp v.eam_ofi (ofi'.mean.getD 0) dt
  { bbo := bbo, ofi := ofi', eam_ofi := eam' }

/-- `Variables::get_signal` (ofi_momentum.rs lines 77-90): the z-score of the
OFI EMA against the EMA-of-EMA statistics; `Short` above `theta`, `Long`
below `-theta`. The float square root is abstracted as `fsqrt`. -/
def Variables.get_signal (fsqrt : ℚ → ℚ) (v : Variables) (theta : ℚ) :
    Option Signal :=
  match v.ofi.mean, v.eam_ofi.mean, v.eam_ofi.variance with
  | some ofi, some mean_ofi, some var_ofi =>
    let z_score := (ofi - mean_ofi) / fsqrt var_ofi
    if theta < z_score then some Signal.Short
    else if z_score < -theta then some Signal.Long
    else none
  | _, _, _ => none

/-- Signaler state, from
`ac_core::strategy::single_ticker::ofi_momentum::OfiMomentum`. -/
structure OfiMomentum where
  window_ofi : Nat
  window_ema : Nat
  theta : ℚ
  warm_up_duration : Nat
  first_ts : Option Nat
  /-- The source names this field `variables`, a reserved word in Lean. -/
  vars : Option Variables
deriving DecidableEq

/-- `OfiMomentum::new` (ofi_momentum.rs lines 94-104): warm-up is
`1 * max(window_ofi, window_ema)` (windows in milliseconds). -/
def OfiMomentum.new (window_ofi window_ema : Nat) (theta : ℚ) : OfiMomentum :=
  { window_ofi := window_ofi, window_ema := window_ema, theta := theta,
    warm_up_duration := 1 * max window_ofi window_ema,
    first_ts := none, vars := none }

/-- `<OfiMomentum as Signaler>::on_data` (ofi_momentum.rs lines 107-133):
set `first_ts` on the first call; create the variables and return `None` on
the first call; otherwise update the variables and, once
`elapsed > warm_up_duration`, return the signal. -/
def OfiMomentum.on_data (fexp fsqrt : ℚ → ℚ) (s : OfiMomentum) (bbo : Bbo) :
    OfiMomentum × Option Signal :=
  let s₁ := if s.first_ts.isNone then { s with first_ts := some bbo.ts } else s
  match s₁.vars with
  | none =>
    ({ s₁ with
        vars := some (Variables.new bbo s₁.window_ofi s₁.window_ema) }, none)
  | some v =>
    let v' := v.update fexp bbo
    ({ s₁ with vars := some v' },
     if s₁.warm_up_duration < bbo.ts - s₁.first_ts.getD 0 then
       v'.get_signal fsqrt s₁.theta
     else none)

/-- The z-score the signaler computes after the data update. -/
def OfiMomentum.zscore (fexp fsqrt : ℚ → ℚ) (v : Variables) (bbo : Bbo) : ℚ :=
  ((v.update fexp bbo).ofi.mean.getD 0
      - (v.update fexp bbo).eam_ofi.mean.getD 0)
    / fsqrt ((v.update fexp bbo).eam_ofi.variance.getD 0)

/-- After an update, both EMA means and the variance are present, and equal
their `getD 0` readings. -/
theorem Variables.update_means (fexp : ℚ → ℚ) (v : Variables) (bbo : Bbo) :
    (v.update fexp bbo).ofi.mean
        = some ((v.update fexp bbo).ofi.mean.getD 0)
    ∧ (v.update fexp bbo).eam_ofi.mean
        = some ((v.update fexp bbo).eam_ofi.mean.getD 0)
    ∧ (v.update fexp bbo).eam_ofi.variance
        = some ((v.update fexp bbo).eam_ofi.variance.getD 0) :=
  ⟨rfl, rfl, rfl⟩

/-- `get_signal` in terms of the present statistics. -/
theorem Variables.get_signal_eq (fsqrt : ℚ → ℚ) (v : Variables) (theta : ℚ)
    (m mo vo : ℚ) (h1 : v.ofi.mean = some m) (h2 : v.eam_ofi.mean = some mo)
    (h3 : v.eam_ofi.variance = some vo) :
    v.get_signal fsqrt theta
      = (if theta < (m - mo) / fsqrt vo then some Signal.Short
         else if (m - mo) / fsqrt vo < -theta then some Signal.Long
         else none) := by
  unfold Variables.get_signal
  rw [h1, h2, h3]

/-- `on_data` on the very first call (no `first_ts` yet) returns no signal. -/
theorem OfiMomentum.on_data_first (fexp fsqrt : ℚ → ℚ) (s : OfiMomentum)
    (bbo : Bbo) (hts : s.first_ts = none) :
    (OfiMomentum.on_data fexp fsqrt s bbo).2 = none := by
  obtain ⟨wofi, wema, theta, wu, fts, vs⟩ := s
  simp only at hts
  subst hts
  unfold OfiMomentum.on_data
  cases vs with
  | none => rfl
  | some v =>
    simp only [Option.isNone_none, if_true, Option.getD_some]
    rw [if_neg (by omega)]

/-- `on_data` during warm-up returns no signal. -/
theorem OfiMomentum.on_data_warmup (fexp fsqrt : ℚ → ℚ) (s : OfiMomentum)
    (bbo : Bbo) (t0 : Nat) (hts : s.first_ts = some t0)
    (hle : bbo.ts - t0 ≤ s.warm_up_duration) :
    (OfiMomentum.on_data fexp fsqrt s bbo).2 = none := by
  obtain ⟨wofi, wema, theta, wu, fts, vs⟩ := s
  simp only at hts hle
  subst hts
  unfold OfiMomentum.on_data
  cases vs with
  | none => rfl
  | some v =>
    simp only [Option.isNone_some, Bool.false_eq_true, if_false,
      Option.getD_some]
    rw [if_neg (by omega)]

/-- `on_data` past warm-up updates the variables and asks them for a signal. -/
theorem OfiMomentum.on_data_main (fexp fsqrt : ℚ → ℚ) (s : OfiMomentum)
    (bbo : Bbo) (t0 : Nat) (v : Variables) (hts : s.first_ts = some t0)
    (hv : s.vars = some v) (hgt : s.warm_up_duration < bbo.ts - t0) :
    OfiMomentum.on_data fexp fsqrt s bbo
      = ({ s with vars := some (v.update fexp bbo) },
         (v.update fexp bbo).get_signal fsqrt s.theta) := by
  obtain ⟨wofi, wema, theta, wu, fts, vs⟩ := s
  simp only at hts hv hgt ⊢
  subst hts
  subst hv
  unfold OfiMomentum.on_data
  simp only [Option.isNone_some, Bool.false_eq_true, if_false,
    Option.getD_some]
  rw [if_pos hgt]

/-- C8: the OFI-momentum signaler's warm-up is `max(window_ofi, window_ema)`
(from the first-ever timestamp); `on_data` returns no signal on the first
call and whenever the elapsed time does not exceed the warm-up; and, once
past warm-up (for a non-negative threshold), with
`z = (EMA_ofi − mean) / sqrt(var)` computed from the updated EMA and
EMA-of-EMA state, it returns `Long` exactly when `z < −θ`, `Short` exactly
when `z > θ`, and no signal otherwise. -/
theorem C8_ofi_momentum (fexp fsqrt : ℚ → ℚ) :
    (∀ (wofi wema : Nat) (theta : ℚ),
        (OfiMomentum.new wofi wema theta).warm_up_duration = max wofi wema)
    ∧ (∀ (s : OfiMomentum) (bbo : Bbo), s.first_ts = none →
        (OfiMomentum.on_data fexp fsqrt s bbo).2 = none)
    ∧ (∀ (s : OfiMomentum) (bbo : Bbo) (t0 : Nat), s.first_ts = some t0 →
        bbo.ts - t0 ≤ s.warm_up_duration →
        (OfiMomentum.on_data fexp fsqrt s bbo).2 = none)
    ∧ (∀ (s : OfiMomentum) (bbo : Bbo) (t0 : Nat) (v : Variables),
        s.first_ts = some t0 → s.vars = some v →
        s.warm_up_duration < bbo.ts - t0 → 0 ≤ s.theta →
        (((OfiMomentum.on_data fexp fsqrt s bbo).2 = some Signal.Long
            ↔ OfiMomentum.zscore fexp fsqrt v bbo < -s.theta)
          ∧ ((OfiMomentum.on_data fexp fsqrt s bbo).2 = some Signal.Short
            ↔ s.theta < OfiMomentum.zscore fexp fsqrt v bbo)
          ∧ ((OfiMomentum.on_data fexp fsqrt s bbo).2 = none
            ↔ -s.theta ≤ OfiMomentum.zscore fexp fsqrt v bbo
              ∧ OfiMomentum.zscore fexp fsqrt v bbo ≤ s.theta))) := by
  refine ⟨?_, OfiMomentum.on_data_first fexp fsqrt,
    OfiMomentum.on_data_warmup fexp fsqrt, ?_⟩
  · intro wofi wema theta
    exact Nat.one_mul _
  · intro s bbo t0 v hts hv hgt hθ
    rw [OfiMomentum.on_data_main fexp fsqrt s bbo t0 v hts hv hgt]
    obtain ⟨h1, h2, h3⟩ := Variables.update_means fexp v bbo
    show ((v.update fexp bbo).get_signal fsqrt s.theta = some Signal.Long ↔ _)
      ∧ ((v.update fexp bbo).get_signal fsqrt s.theta = some Signal.Short ↔ _)
      ∧ ((v.update fexp bbo).get_signal fsqrt s.theta = none ↔ _)
    rw [Variables.get_signal_eq fsqrt (v.update fexp bbo) s.theta _ _ _ h1 h2 h3]
    have hzz : ((v.update fexp bbo).ofi.mean.getD 0
        - (v.update fexp bbo).eam_ofi.mean.getD 0)
        / fsqrt ((v.update fexp bbo).eam_ofi.variance.getD 0)
        = OfiMomentum.zscore fexp fsqrt v bbo := rfl
    rw [hzz]
    by_cases hA : s.theta < OfiMomentum.zscore fexp fsqrt v bbo
    · have h2θ : ¬ OfiMomentum.zscore fexp fsqrt v bbo < -s.theta := by
        linarith
      rw [if_pos hA]
      exact ⟨⟨fun h => by simp at h, fun h => absurd h h2θ⟩,
             ⟨fun _ => hA, fun _ => rfl⟩,
             ⟨fun h => by simp at h, fun h => absurd hA (not_lt.mpr h.2)⟩⟩
    · by_cases hB : OfiMomentum.zscore fexp fsqrt v bbo < -s.theta
      · rw [if_neg hA, if_pos hB]
        exact ⟨⟨fun _ => hB, fun _ => rfl⟩,
               ⟨fun h => by simp at h, fun h => absurd h hA⟩,
               ⟨fun h => by simp at h, fun h => absurd hB (not_lt.mpr h.1)⟩⟩
      · rw [if_neg hA, if_neg hB]
        exact ⟨⟨fun h => by simp at h, fun h => absurd h hB⟩,
               ⟨fun h => by simp at h, fun h => absurd h hA⟩,
               ⟨fun _ => ⟨not_lt.mp hB, not_lt.mp hA⟩, fun _ => rfl⟩⟩

/-- Witness for C8: a concrete warm-up tick (elapsed 15 ≤ warm-up 20, with
live EMA state) produces no signal, via the theorem. -/
theorem C8_witness :
    (OfiMomentum.on_data (fun _ => 0) (fun q => q)
      { window_ofi := 10, window_ema := 20, theta := 1,
        warm_up_duration := 20, first_ts := some 0,
        vars := some
          { bbo := { ts := 5, instrument_id := InstId.EthUsdtSwap,
                     bid_price := 100, bid_size := 1, ask_price := 101,
                     ask_size := 1 },
            ofi := { tau := 10, mean := some 5 },
            eam_ofi := { tau := 20, mean := some 3, mean_sq := some 25 } } }
      { ts := 15, instrument_id := InstId.EthUsdtSwap, bid_price := 100,
        bid_size := 1, ask_price := 101, ask_size := 1 }).2 = none :=
  (C8_ofi_momentum (fun _ => 0) (fun q => q)).2.2.1
    { window_ofi := 10, window_ema := 20, theta := 1,
      warm_up_duration := 20, first_ts := some 0,
      vars := some
        { bbo := { ts := 5, instrument_id := InstId.EthUsdtSwap,
                   bid_price := 100, bid_size := 1, ask_price := 101,
                   ask_size := 1 },
          ofi := { tau := 10, mean := some 5 },
          eam_ofi := { tau := 20, mean := some 3, mean_sq := some 25 } } }
    { ts := 15, instrument_id := InstId.EthUsdtSwap, bid_price := 100,
      bid_size := 1, ask_price := 101, ask_size := 1 }
    0 rfl (by decide)
